import Mathlib

/-!
Shallow embedding of the measure data model of `src/_math/dirac_measure.py`:
the `point`, `dirac_measure` and `product_measure` classes and the
`compose` / `decompose` / `flatten` / `unflatten` transform functions.
Real-number scalars of the source are modelled as rationals so that all
definitions are executable.  External routines of the statistics library
(`_pack`, `_nested_split`, `impose_mean`, `impose_spread`) are not part of
the source tree and are modelled from the specification; each such
definition is marked in its doc comment.
-/

/-- A 1-d object with weight and position (class `point`). -/
structure point where
  position : ℚ
  weight : ℚ
deriving DecidableEq, Repr

/-- A 1-d collection of points forming a discrete measure
(class `dirac_measure`, a Python subclass of `list`). -/
abbrev dirac_measure := List point

/-- Source `dirac_measure.__weights`: the list of the weights of the points. -/
def dirac_measure.weights (s : dirac_measure) : List ℚ :=
  s.map point.weight

/-- Source `dirac_measure.__positions`: the list of the positions of the points. -/
def dirac_measure.coords (s : dirac_measure) : List ℚ :=
  s.map point.position

/-- Source `dirac_measure.__n`: the number of points. -/
def dirac_measure.npts (s : dirac_measure) : ℕ :=
  s.length

/-- Source `dirac_measure.__mass`: the sum of the weights. -/
def dirac_measure.mass (s : dirac_measure) : ℚ :=
  (dirac_measure.weights s).sum

/-- Source `dirac_measure.__set_weights`: the loop
`for i in range(len(weights)): self[i].weight = weights[i]`.
The result is the list state when the call returns (`Except.ok`) or when an
`IndexError` escapes because `weights` is longer than the list
(`Except.error`, carrying the partially mutated state at that moment). -/
def dirac_measure.set_weights : dirac_measure → List ℚ → Except dirac_measure dirac_measure
  | s, [] => .ok s
  | [], _ :: _ => .error []
  | p :: s, q :: qs =>
      match dirac_measure.set_weights s qs with
      | .ok t => .ok ({ p with weight := q } :: t)
      | .error t => .error ({ p with weight := q } :: t)

/-- Source `dirac_measure.__set_positions`: the loop
`for i in range(len(positions)): self[i].position = positions[i]`,
with the same `Except` convention as `dirac_measure.set_weights`. -/
def dirac_measure.set_positions : dirac_measure → List ℚ → Except dirac_measure dirac_measure
  | s, [] => .ok s
  | [], _ :: _ => .error []
  | p :: s, q :: qs =>
      match dirac_measure.set_positions s qs with
      | .ok t => .ok ({ p with position := q } :: t)
      | .error t => .error ({ p with position := q } :: t)

/-- The list state after a (possibly failing) setter call. -/
def afterSet : Except dirac_measure dirac_measure → dirac_measure
  | .ok t => t
  | .error t => t

theorem set_positions_spec (s : dirac_measure) (q : List ℚ) :
    afterSet (dirac_measure.set_positions s q) =
      (List.zipWith (fun p x => { p with position := x }) s q) ++ s.drop q.length ∧
    ((dirac_measure.set_positions s q).isOk = true ↔ q.length ≤ s.length) := by
  induction s generalizing q with
  | nil =>
    cases q with
    | nil => simp [dirac_measure.set_positions, afterSet, Except.isOk, Except.toBool]
    | cons x xs => simp [dirac_measure.set_positions, afterSet, Except.isOk, Except.toBool]
  | cons p s ih =>
    cases q with
    | nil => simp [dirac_measure.set_positions, afterSet, Except.isOk, Except.toBool]
    | cons x xs =>
      have h := ih xs
      constructor
      · show afterSet (dirac_measure.set_positions (p :: s) (x :: xs)) = _
        rw [dirac_measure.set_positions]
        rcases hcall : dirac_measure.set_positions s xs with t | t <;>
          simp_all [afterSet]
      · show (dirac_measure.set_positions (p :: s) (x :: xs)).isOk = true ↔ _
        rw [dirac_measure.set_positions]
        rcases hcall : dirac_measure.set_positions s xs with t | t <;>
          simp_all [Except.isOk, Except.toBool]

theorem set_weights_spec (s : dirac_measure) (q : List ℚ) :
    afterSet (dirac_measure.set_weights s q) =
      (List.zipWith (fun p x => { p with weight := x }) s q) ++ s.drop q.length ∧
    ((dirac_measure.set_weights s q).isOk = true ↔ q.length ≤ s.length) := by
  induction s generalizing q with
  | nil =>
    cases q with
    | nil => simp [dirac_measure.set_weights, afterSet, Except.isOk, Except.toBool]
    | cons x xs => simp [dirac_measure.set_weights, afterSet, Except.isOk, Except.toBool]
  | cons p s ih =>
    cases q with
    | nil => simp [dirac_measure.set_weights, afterSet, Except.isOk, Except.toBool]
    | cons x xs =>
      have h := ih xs
      constructor
      · show afterSet (dirac_measure.set_weights (p :: s) (x :: xs)) = _
        rw [dirac_measure.set_weights]
        rcases hcall : dirac_measure.set_weights s xs with t | t <;>
          simp_all [afterSet]
      · show (dirac_measure.set_weights (p :: s) (x :: xs)).isOk = true ↔ _
        rw [dirac_measure.set_weights]
        rcases hcall : dirac_measure.set_weights s xs with t | t <;>
          simp_all [Except.isOk, Except.toBool]

theorem zipWith_right_eq_take {α β : Type} (s : List α) (q : List β) :
    List.zipWith (fun _ b => b) s q = q.take s.length := by
  induction s generalizing q with
  | nil => simp
  | cons p s ih =>
    cases q with
    | nil => simp
    | cons x xs => simp [ih]

theorem zipWith_left_map_take {α β γ : Type} (g : α → γ) (s : List α) (q : List β) :
    List.zipWith (fun a _ => g a) s q = (s.take q.length).map g := by
  induction s generalizing q with
  | nil => simp
  | cons p s ih =>
    cases q with
    | nil => simp
    | cons x xs => simp [ih]

theorem coords_afterSet (s : dirac_measure) (q : List ℚ) :
    dirac_measure.coords (afterSet (dirac_measure.set_positions s q)) =
      q.take s.length ++ (dirac_measure.coords s).drop q.length := by
  rw [(set_positions_spec s q).1]
  simp only [dirac_measure.coords, List.map_append, List.map_zipWith, List.map_drop]
  rw [zipWith_right_eq_take]

theorem weights_afterSet_pos (s : dirac_measure) (q : List ℚ) :
    dirac_measure.weights (afterSet (dirac_measure.set_positions s q)) =
      dirac_measure.weights s := by
  rw [(set_positions_spec s q).1]
  simp only [dirac_measure.weights, List.map_append, List.map_zipWith, List.map_drop]
  rw [zipWith_left_map_take, List.map_take, List.take_append_drop]

theorem npts_afterSet_pos (s : dirac_measure) (q : List ℚ) :
    dirac_measure.npts (afterSet (dirac_measure.set_positions s q)) = s.length := by
  rw [(set_positions_spec s q).1]
  simp only [dirac_measure.npts, List.length_append, List.length_zipWith,
    List.length_drop]
  omega

theorem weights_afterSet (s : dirac_measure) (q : List ℚ) :
    dirac_measure.weights (afterSet (dirac_measure.set_weights s q)) =
      q.take s.length ++ (dirac_measure.weights s).drop q.length := by
  rw [(set_weights_spec s q).1]
  simp only [dirac_measure.weights, List.map_append, List.map_zipWith, List.map_drop]
  rw [zipWith_right_eq_take]

theorem coords_afterSet_wt (s : dirac_measure) (q : List ℚ) :
    dirac_measure.coords (afterSet (dirac_measure.set_weights s q)) =
      dirac_measure.coords s := by
  rw [(set_weights_spec s q).1]
  simp only [dirac_measure.coords, List.map_append, List.map_zipWith, List.map_drop]
  rw [zipWith_left_map_take, List.map_take, List.take_append_drop]

theorem npts_afterSet_wt (s : dirac_measure) (q : List ℚ) :
    dirac_measure.npts (afterSet (dirac_measure.set_weights s q)) = s.length := by
  rw [(set_weights_spec s q).1]
  simp only [dirac_measure.npts, List.length_append, List.length_zipWith,
    List.length_drop]
  omega

/-- C1 (amended).  Assigning `s.coords = q` mutates the first
`min(len(q), s.npts)` positions to the corresponding entries of `q` and leaves
the remaining positions, every weight and the point count unchanged; the call
succeeds exactly when `len(q) <= s.npts`, and when `len(q) > s.npts` an
`IndexError` escapes only after every position of `s` has been overwritten.
Symmetrically for `s.weights = q`. -/
theorem C1_setter_behavior (s : dirac_measure) (q : List ℚ) :
    dirac_measure.coords (afterSet (dirac_measure.set_positions s q)) =
      q.take s.npts ++ (dirac_measure.coords s).drop q.length ∧
    dirac_measure.weights (afterSet (dirac_measure.set_positions s q)) =
      dirac_measure.weights s ∧
    dirac_measure.npts (afterSet (dirac_measure.set_positions s q)) = s.npts ∧
    ((dirac_measure.set_positions s q).isOk = true ↔ q.length ≤ s.npts) ∧
    dirac_measure.weights (afterSet (dirac_measure.set_weights s q)) =
      q.take s.npts ++ (dirac_measure.weights s).drop q.length ∧
    dirac_measure.coords (afterSet (dirac_measure.set_weights s q)) =
      dirac_measure.coords s ∧
    dirac_measure.npts (afterSet (dirac_measure.set_weights s q)) = s.npts ∧
    ((dirac_measure.set_weights s q).isOk = true ↔ q.length ≤ s.npts) := by
  exact ⟨coords_afterSet s q, weights_afterSet_pos s q, npts_afterSet_pos s q,
    (set_positions_spec s q).2, weights_afterSet s q, coords_afterSet_wt s q,
    npts_afterSet_wt s q, (set_weights_spec s q).2⟩

/-- C1 (counterexample).  On the two-point measure at positions 0 and 1 with a
one-element replacement sequence, the setter does not fail and it mutates the
first position, contradicting the claim that a wrong-length assignment fails
and leaves all positions unchanged. -/
theorem C1_counterexample :
    ([(5 : ℚ)]).length ≠ dirac_measure.npts [⟨0, 1⟩, ⟨1, 1⟩] ∧
    (dirac_measure.set_positions [⟨0, 1⟩, ⟨1, 1⟩] [5]).isOk = true ∧
    dirac_measure.coords (afterSet (dirac_measure.set_positions [⟨0, 1⟩, ⟨1, 1⟩] [5])) ≠
      dirac_measure.coords [⟨0, 1⟩, ⟨1, 1⟩] := by
  decide

/-- Modelled from the spec: the external helper `_pack` of the statistics
library (not under src/) groups per-dimension sequences into the
Cartesian-product enumeration order shared by the joint `weights` and `coords`
views: one element drawn from each dimension per grid point, dimensions kept
in their original order, the last dimension varying fastest. -/
def _pack {α : Type} : List (List α) → List (List α)
  | [] => [[]]
  | xs :: rest => (xs.map (fun x => (_pack rest).map (fun t => x :: t))).flatten

/-- An N-d product measure, a collection of dirac measures
(class `product_measure`, a Python subclass of `list`). -/
abbrev product_measure := List dirac_measure

/-- Source `product_measure.__n`: the loop `npts = 1; for i in self: npts *= i.npts`. -/
def product_measure.npts (c : product_measure) : ℕ :=
  c.foldl (fun n i => n * dirac_measure.npts i) 1

/-- Source `product_measure.__weights`: pack the per-dimension weight lists and take,
for each grid point, the product of the selected weights
(the loop `weight = 1.0; for w in wts: weight *= w`). -/
def product_measure.weights (c : product_measure) : List ℚ :=
  (_pack (c.map dirac_measure.weights)).map (fun wts => wts.foldl (fun w v => w * v) 1)

/-- Source `product_measure.__positions`: pack the per-dimension position lists into
joint coordinate tuples. -/
def product_measure.coords (c : product_measure) : List (List ℚ) :=
  _pack (c.map dirac_measure.coords)

/-- Source `product_measure.__mass`: `[self[i].mass for i in range(len(self))]`. -/
def product_measure.mass (c : product_measure) : List ℚ :=
  c.map dirac_measure.mass

/-- Source `product_measure.pof`: the loop over `range(self.npts)` accumulating
`self.weights[i]` whenever `f(self.coords[i]) <= 0.0`. -/
def product_measure.pof (c : product_measure) (f : List ℚ → ℚ) : ℚ :=
  (List.range (product_measure.npts c)).foldl
    (fun u i => if f ((product_measure.coords c).getD i []) ≤ 0
      then u + (product_measure.weights c).getD i 0 else u) 0

theorem sum_map_const {α : Type} (xs : List α) (k : ℕ) :
    (xs.map (fun _ => k)).sum = xs.length * k := by
  induction xs with
  | nil => simp
  | cons x xs ih => simp [ih, Nat.succ_mul, Nat.add_comm]

theorem pack_length {α : Type} (L : List (List α)) :
    (_pack L).length = (L.map List.length).prod := by
  induction L with
  | nil => simp [_pack]
  | cons xs rest ih =>
    simp only [_pack, List.length_flatten, List.map_map, List.map_cons, List.prod_cons]
    have : ∀ ys : List (List α),
        (xs.map (List.length ∘ fun x => ys.map (fun t => x :: t))).sum =
          xs.length * ys.length := by
      intro ys
      simp only [Function.comp_def, List.length_map]
      exact sum_map_const xs ys.length
    rw [this, ih]

theorem npts_eq_prod (c : product_measure) :
    product_measure.npts c = (c.map dirac_measure.npts).prod := by
  have : ∀ (l : List dirac_measure) (n : ℕ),
      l.foldl (fun n i => n * dirac_measure.npts i) n =
        n * (l.map dirac_measure.npts).prod := by
    intro l
    induction l with
    | nil => simp
    | cons d l ih => intro n; simp [ih, mul_assoc]
  simpa [product_measure.npts] using this c 1

theorem coords_length (c : product_measure) :
    (product_measure.coords c).length = product_measure.npts c := by
  rw [product_measure.coords, pack_length, npts_eq_prod, List.map_map]
  simp only [Function.comp_def, dirac_measure.coords, List.length_map]
  rfl

theorem weights_length (c : product_measure) :
    (product_measure.weights c).length = product_measure.npts c := by
  rw [product_measure.weights, List.length_map, pack_length, npts_eq_prod,
    List.map_map]
  simp only [Function.comp_def, dirac_measure.weights, List.length_map]
  rfl

/-- C4.  The joint weight and coordinate views have one entry per grid point:
their common length is `npts`, the product of the per-dimension point counts. -/
theorem C4_view_sizes (c : product_measure) :
    (product_measure.weights c).length = (product_measure.coords c).length ∧
    (product_measure.coords c).length = product_measure.npts c ∧
    product_measure.npts c = (c.map dirac_measure.npts).prod := by
  refine ⟨?_, coords_length c, npts_eq_prod c⟩
  rw [weights_length, coords_length]

/-- C10.  An empty product measure has `npts = 1` (the empty product), and in
general `__n` computes the product, starting from 1, of the contained counts. -/
theorem C10_npts_empty_product :
    product_measure.npts ([] : product_measure) = 1 ∧
    ∀ c : product_measure, product_measure.npts c = (c.map dirac_measure.npts).prod := by
  exact ⟨rfl, npts_eq_prod⟩

/-- C7.  The 2-d product measure with dimension A at positions [0, 1] with
weights [0.5, 0.5] and dimension B at position [2] with weight [1.0] has
`npts = 2`, `coords = [(0, 2), (1, 2)]`, `weights = [0.5, 0.5]` and
`mass = [1.0, 1.0]`. -/
theorem C7_two_dim_example :
    product_measure.npts [[⟨0, 1/2⟩, ⟨1, 1/2⟩], [⟨2, 1⟩]] = 2 ∧
    product_measure.coords [[⟨0, 1/2⟩, ⟨1, 1/2⟩], [⟨2, 1⟩]] = [[0, 2], [1, 2]] ∧
    product_measure.weights [[⟨0, 1/2⟩, ⟨1, 1/2⟩], [⟨2, 1⟩]] = [1/2, 1/2] ∧
    product_measure.mass [[⟨0, 1/2⟩, ⟨1, 1/2⟩], [⟨2, 1⟩]] = [1, 1] := by
  norm_num [product_measure.npts, product_measure.weights, product_measure.coords,
    product_measure.mass, _pack, dirac_measure.weights, dirac_measure.coords,
    dirac_measure.npts, dirac_measure.mass]

theorem foldl_range_filter {α : Type} (P : α → Prop) [DecidablePred P] (d : α) :
    ∀ (xs : List α) (ws : List ℚ), xs.length = ws.length → ∀ u : ℚ,
    (List.range xs.length).foldl
      (fun u i => if P (xs.getD i d) then u + ws.getD i 0 else u) u =
    u + (((xs.zip ws).filter (fun p => decide (P p.1))).map Prod.snd).sum := by
  intro xs
  induction xs with
  | nil => intro ws h u; simp
  | cons x xs ih =>
    intro ws h u
    cases ws with
    | nil => simp at h
    | cons w ws =>
      have hlen : xs.length = ws.length := by simpa using h
      rw [List.length_cons, List.range_succ_eq_map, List.foldl_cons, List.foldl_map]
      simp only [List.getD_cons_zero, List.getD_cons_succ]
      rw [ih ws hlen]
      by_cases hP : P x
      · simp [hP, List.filter_cons, add_assoc]
      · simp [hP, List.filter_cons]

theorem foldl_id (l : List ℕ) (u : ℚ) : l.foldl (fun u _ => u) u = u := by
  induction l generalizing u with
  | nil => rfl
  | cons x l ih => simp only [List.foldl_cons]; exact ih u

theorem foldl_range_getD_sum (ws : List ℚ) :
    ∀ u : ℚ, (List.range ws.length).foldl (fun u i => u + ws.getD i 0) u = u + ws.sum := by
  induction ws with
  | nil => intro u; simp
  | cons w ws ih =>
    intro u
    rw [List.length_cons, List.range_succ_eq_map, List.foldl_cons, List.foldl_map]
    simp only [List.getD_cons_zero, List.getD_cons_succ]
    rw [ih (u + w), List.sum_cons, add_assoc]

/-- C2.  `pof(f)` returns the sum of the joint weights over exactly the grid
indices whose coordinate tuple makes `f` non-positive (strictly positive `f`
counts as success), with no renormalization; in particular a constant
`f = 1.0` gives 0.0 and a constant `f = -1.0` gives the sum of all joint
weights. -/
theorem C2_pof_failure_sum (c : product_measure) (f : List ℚ → ℚ) :
    product_measure.pof c f =
      ((((product_measure.coords c).zip (product_measure.weights c)).filter
        (fun p => decide (f p.1 ≤ 0))).map Prod.snd).sum ∧
    product_measure.pof c (fun _ => 1) = 0 ∧
    product_measure.pof c (fun _ => -1) = (product_measure.weights c).sum := by
  have hmain : ∀ g : List ℚ → ℚ, product_measure.pof c g =
      ((((product_measure.coords c).zip (product_measure.weights c)).filter
        (fun p => decide (g p.1 ≤ 0))).map Prod.snd).sum := by
    intro g
    have hlen : (product_measure.coords c).length = (product_measure.weights c).length := by
      rw [coords_length, weights_length]
    have := foldl_range_filter (fun t => g t ≤ 0) ([] : List ℚ)
      (product_measure.coords c) (product_measure.weights c) hlen 0
    rw [product_measure.pof, ← coords_length c, this, zero_add]
  refine ⟨hmain f, ?_, ?_⟩
  · rw [product_measure.pof]
    have h1 : ¬ ((1 : ℚ) ≤ 0) := by norm_num
    simp only [h1, if_false]
    exact foldl_id _ 0
  · rw [product_measure.pof, ← weights_length c]
    have h1 : ((-1 : ℚ) ≤ 0) := by norm_num
    simp only [h1, if_true]
    rw [foldl_range_getD_sum _ 0, zero_add]

/-- Source `flatten`: the loop `rv = []; for i: rv.append(c[i].weights);
rv.append(c[i].coords)` followed by chaining the list of lists into one flat
list. -/
def flatten (c : product_measure) : List ℚ :=
  (c.foldl (fun rv i => rv ++ [dirac_measure.weights i, dirac_measure.coords i]) []).flatten

theorem flatten_eq (c : product_measure) :
    flatten c =
      (c.map (fun i => dirac_measure.weights i ++ dirac_measure.coords i)).flatten := by
  have key : ∀ (l : product_measure) (acc : List (List ℚ)),
      (l.foldl (fun rv i => rv ++ [dirac_measure.weights i, dirac_measure.coords i]) acc).flatten =
        acc.flatten ++
          (l.map (fun i => dirac_measure.weights i ++ dirac_measure.coords i)).flatten := by
    intro l
    induction l with
    | nil => intro acc; simp
    | cons d l ih =>
      intro acc
      simp only [List.foldl_cons, List.map_cons, List.flatten_cons, ih,
        List.flatten_append]
      simp [List.append_assoc]
  simpa using key c []

/-- C6.  `flatten` emits, for each dimension in its original order, first the
full weight sequence of that dimension and then its full position sequence,
concatenated into one flat list. -/
theorem C6_flatten_order (c : product_measure) :
    flatten c =
      (c.map (fun i => dirac_measure.weights i ++ dirac_measure.coords i)).flatten :=
  flatten_eq c

/-- C9.  The flat form has length `2 * sum(npts)`: each dimension contributes
its `npts` weights plus its `npts` positions. -/
theorem C9_flatten_length (c : product_measure) :
    (flatten c).length = 2 * (c.map dirac_measure.npts).sum := by
  rw [flatten_eq]
  induction c with
  | nil => rfl
  | cons d c ih =>
    rw [List.map_cons, List.flatten_cons, List.length_append, ih, List.map_cons,
      List.sum_cons]
    simp only [dirac_measure.weights, dirac_measure.coords, dirac_measure.npts,
      List.length_append, List.length_map]
    omega

/-- Modelled from the spec: the external helper `_nested_split(flat, npts)`
of the statistics library (not under src/) splits a flat sequence into nested
per-dimension weight and position sequences, consuming for each dimension
count n first n weights and then n positions — the inverse of the packing
used by `flatten`. -/
def _nested_split : List ℚ → List ℕ → List (List ℚ) × List (List ℚ)
  | _, [] => ([], [])
  | params, n :: ns =>
      let rest := _nested_split (params.drop (2 * n)) ns
      ((params.take n) :: rest.1, ((params.drop n).take n) :: rest.2)

/-- Source `compose`: build one dirac measure per dimension by the nested loops over
`range(len(samples))` and `range(len(samples[i]))`, pairing
`samples[i][j]` with `weights[i][j]` into points.  Out-of-range indexing,
which raises in Python, is modelled by a default value. -/
def compose (samples weights : List (List ℚ)) : product_measure :=
  (List.range samples.length).map (fun i =>
    (List.range ((samples.getD i []).length)).map (fun j =>
      { position := (samples.getD i []).getD j 0,
        weight := (weights.getD i []).getD j 0 }))

/-- Source `decompose`: split `flatten(c)` back into nested weight and position
sequences at each dimension point count, returning `(positions, weights)`. -/
def decompose (c : product_measure) : List (List ℚ) × List (List ℚ) :=
  let wx := _nested_split (flatten c) (c.map dirac_measure.npts)
  (wx.2, wx.1)

/-- Source `unflatten`: split the flat parameter list into nested weight and position
sequences and `compose` them into a product measure. -/
def unflatten (params : List ℚ) (npts : List ℕ) : product_measure :=
  let wx := _nested_split params npts
  compose wx.2 wx.1

theorem map_getD_range {α : Type} (l : List α) (d : α) :
    (List.range l.length).map (fun j => l.getD j d) = l := by
  induction l with
  | nil => rfl
  | cons x xs ih =>
    rw [List.length_cons, List.range_succ_eq_map, List.map_cons, List.map_map]
    simp only [Function.comp_def, List.getD_cons_zero, List.getD_cons_succ]
    rw [ih]

theorem compose_coords (x w : List (List ℚ)) :
    (compose x w).map dirac_measure.coords = x := by
  rw [compose, List.map_map]
  have h : (dirac_measure.coords ∘ fun i =>
      (List.range ((x.getD i []).length)).map (fun j =>
        ({ position := (x.getD i []).getD j 0,
           weight := (w.getD i []).getD j 0 } : point))) =
      fun i => x.getD i [] := by
    funext i
    simp only [Function.comp_def, dirac_measure.coords, List.map_map]
    exact map_getD_range (x.getD i []) 0
  rw [h]
  exact map_getD_range x []

theorem compose_weights (x w : List (List ℚ))
    (houter : x.length = w.length)
    (hinner : ∀ i, (x.getD i []).length = (w.getD i []).length) :
    (compose x w).map dirac_measure.weights = w := by
  rw [compose, List.map_map]
  have h : (dirac_measure.weights ∘ fun i =>
      (List.range ((x.getD i []).length)).map (fun j =>
        ({ position := (x.getD i []).getD j 0,
           weight := (w.getD i []).getD j 0 } : point))) =
      fun i => w.getD i [] := by
    funext i
    simp only [Function.comp_def, dirac_measure.weights, List.map_map]
    rw [hinner i]
    exact map_getD_range (w.getD i []) 0
  rw [h, houter]
  exact map_getD_range w []

theorem weights_length_npts (d : dirac_measure) :
    (dirac_measure.weights d).length = dirac_measure.npts d := by
  simp [dirac_measure.weights, dirac_measure.npts]

theorem coords_length_npts (d : dirac_measure) :
    (dirac_measure.coords d).length = dirac_measure.npts d := by
  simp [dirac_measure.coords, dirac_measure.npts]

theorem nested_split_flatten (c : product_measure) :
    _nested_split (flatten c) (c.map dirac_measure.npts) =
      (c.map dirac_measure.weights, c.map dirac_measure.coords) := by
  rw [flatten_eq]
  induction c with
  | nil => rfl
  | cons d c ih =>
    rw [List.map_cons, List.flatten_cons, List.map_cons]
    simp only [_nested_split]
    have hw : (dirac_measure.weights d).length = dirac_measure.npts d :=
      weights_length_npts d
    have hx : (dirac_measure.coords d).length = dirac_measure.npts d :=
      coords_length_npts d
    set F := (c.map (fun i => dirac_measure.weights i ++ dirac_measure.coords i)).flatten
      with hF
    have h1 : ((dirac_measure.weights d ++ dirac_measure.coords d) ++ F).take
        (dirac_measure.npts d) = dirac_measure.weights d := by
      rw [List.append_assoc, List.take_append_of_le_length hw.ge,
        List.take_of_length_le hw.le]
    have h2 : (((dirac_measure.weights d ++ dirac_measure.coords d) ++ F).drop
        (dirac_measure.npts d)).take (dirac_measure.npts d) = dirac_measure.coords d := by
      rw [List.append_assoc, List.drop_left' hw, List.take_append_of_le_length hx.ge,
        List.take_of_length_le hx.le]
    have h3 : ((dirac_measure.weights d ++ dirac_measure.coords d) ++ F).drop
        (2 * dirac_measure.npts d) = F := by
      apply List.drop_left'
      rw [List.length_append, hw, hx, two_mul]
    rw [h1, h2, h3, ih]
    simp

theorem coords_weights_getD_length (c : product_measure) (i : ℕ) :
    ((c.map dirac_measure.coords).getD i []).length =
      ((c.map dirac_measure.weights).getD i []).length := by
  by_cases h : i < c.length
  · rw [List.getD_eq_getElem _ _ (by simpa using h),
      List.getD_eq_getElem _ _ (by simpa using h)]
    simp [dirac_measure.coords, dirac_measure.weights]
  · rw [List.getD_eq_default _ _ (by simpa using Nat.le_of_not_lt h),
      List.getD_eq_default _ _ (by simpa using Nat.le_of_not_lt h)]

/-- C3.  Flattening a product measure and unflattening with the per-dimension
point counts reproduces the same measure: the joint coordinate and joint
weight views of the round-tripped measure equal those of the original. -/
theorem C3_unflatten_flatten (c : product_measure) :
    product_measure.coords (unflatten (flatten c) (c.map dirac_measure.npts)) =
      product_measure.coords c ∧
    product_measure.weights (unflatten (flatten c) (c.map dirac_measure.npts)) =
      product_measure.weights c := by
  have hun : unflatten (flatten c) (c.map dirac_measure.npts) =
      compose (c.map dirac_measure.coords) (c.map dirac_measure.weights) := by
    rw [unflatten, nested_split_flatten c]
  have hco : (compose (c.map dirac_measure.coords) (c.map dirac_measure.weights)).map
      dirac_measure.coords = c.map dirac_measure.coords :=
    compose_coords _ _
  have hwe : (compose (c.map dirac_measure.coords) (c.map dirac_measure.weights)).map
      dirac_measure.weights = c.map dirac_measure.weights :=
    compose_weights _ _ (by simp) (coords_weights_getD_length c)
  constructor
  · rw [hun, product_measure.coords, hco, product_measure.coords]
  · rw [hun, product_measure.weights, hwe, product_measure.weights]

/-- C5.  For nested positions and weights with matching outer length and
matching per-dimension inner lengths, `decompose(compose(positions, weights))`
returns the pair `(positions, weights)` unchanged. -/
theorem C5_decompose_compose (x w : List (List ℚ))
    (houter : x.length = w.length)
    (hinner : ∀ i, (x.getD i []).length = (w.getD i []).length) :
    decompose (compose x w) = (x, w) := by
  have hx := compose_coords x w
  have hw := compose_weights x w houter hinner
  rw [decompose, nested_split_flatten (compose x w), hx, hw]

/-- C5 (witness).  The round trip at the concrete two-dimensional input with
positions [[0, 1], [2]] and weights [[0.5, 0.5], [1.0]]. -/
theorem C5_decompose_compose_witness :
    decompose (compose [[0, 1], [2]] [[1/2, 1/2], [1]]) =
      ([[0, 1], [2]], [[1/2, 1/2], [1]]) := by
  have hinner : ∀ i : ℕ, (([[0, 1], [2]] : List (List ℚ)).getD i []).length =
      (([[1/2, 1/2], [1]] : List (List ℚ)).getD i []).length := by
    intro i
    rcases i with _ | _ | n <;> rfl
  exact C5_decompose_compose _ _ rfl hinner

/-- Modelled from the spec: the external statistics routine
`mean(positions, weights)`, the weighted mean of the positions. -/
def stat_mean (x w : List ℚ) : ℚ :=
  (((x.zip w).map (fun p => p.1 * p.2)).sum) / w.sum

/-- Modelled from the spec: the external statistics routine
`spread(positions)`, the spread |max - min| of the positions. -/
def stat_spread (x : List ℚ) : ℚ :=
  |x.foldr max (x.headD 0) - x.foldr min (x.headD 0)|

/-- Modelled from the spec: `impose_mean(m, positions, weights)` of the
statistics library (not under src/) recomputes the positions, holding the
weights fixed, so that the weighted mean becomes m; modelled as shifting every
position by the required offset, producing one output per input position. -/
def impose_mean (m : ℚ) (x w : List ℚ) : List ℚ :=
  x.map (fun xi => xi + (m - stat_mean x w))

/-- Modelled from the spec: `impose_spread(r, positions, weights)` of the
statistics library (not under src/) recomputes the positions so that the
spread becomes r; modelled as rescaling the positions about their weighted
mean, producing one output per input position. -/
def impose_spread (r : ℚ) (x w : List ℚ) : List ℚ :=
  x.map (fun xi => stat_mean x w + (xi - stat_mean x w) * (r / stat_spread x))

/-- Source `dirac_measure.__set_range`:
`self.coords = impose_spread(r, self.coords, self.weights)`. -/
def dirac_measure.set_range (s : dirac_measure) (r : ℚ) : dirac_measure :=
  afterSet (dirac_measure.set_positions s
    (impose_spread r (dirac_measure.coords s) (dirac_measure.weights s)))

/-- Source `dirac_measure.__set_mean`:
`self.coords = impose_mean(m, self.coords, self.weights)`. -/
def dirac_measure.set_mean (s : dirac_measure) (m : ℚ) : dirac_measure :=
  afterSet (dirac_measure.set_positions s
    (impose_mean m (dirac_measure.coords s) (dirac_measure.weights s)))

theorem coords_afterSet_full (s : dirac_measure) (q : List ℚ)
    (h : q.length = s.length) :
    dirac_measure.coords (afterSet (dirac_measure.set_positions s q)) = q := by
  rw [coords_afterSet s q, List.take_of_length_le h.le, List.drop_eq_nil_of_le,
    List.append_nil]
  simp [dirac_measure.coords, h]

/-- C8.  `s.range = r` and `s.mean = m` replace only the point positions, with
the output of the external impose routine, and leave every weight and the
point count unchanged. -/
theorem C8_range_mean_frame (s : dirac_measure) (r m : ℚ) :
    dirac_measure.coords (dirac_measure.set_range s r) =
      impose_spread r (dirac_measure.coords s) (dirac_measure.weights s) ∧
    dirac_measure.weights (dirac_measure.set_range s r) = dirac_measure.weights s ∧
    dirac_measure.npts (dirac_measure.set_range s r) = dirac_measure.npts s ∧
    dirac_measure.coords (dirac_measure.set_mean s m) =
      impose_mean m (dirac_measure.coords s) (dirac_measure.weights s) ∧
    dirac_measure.weights (dirac_measure.set_mean s m) = dirac_measure.weights s ∧
    dirac_measure.npts (dirac_measure.set_mean s m) = dirac_measure.npts s := by
  have hr : (impose_spread r (dirac_measure.coords s) (dirac_measure.weights s)).length
      = s.length := by
    simp [impose_spread, dirac_measure.coords]
  have hm : (impose_mean m (dirac_measure.coords s) (dirac_measure.weights s)).length
      = s.length := by
    simp [impose_mean, dirac_measure.coords]
  exact ⟨coords_afterSet_full s _ hr, weights_afterSet_pos s _, npts_afterSet_pos s _,
    coords_afterSet_full s _ hm, weights_afterSet_pos s _, npts_afterSet_pos s _⟩
